import Mathlib

/-!
# Verification of the YouTube channel exporter

Shallow embedding of the exporter (`youtube_exporter.py`, `run.py`): the
paginated video-id collector, the batched detail fetcher, the payload
flattener, the ISO-8601 duration parser, the CSV exporter, and the
channel-argument resolution of the two entry points.  The upstream API is
modelled as an explicit function parameter; transport errors (`HttpError`)
are a response constructor, and Python `KeyError` / `AttributeError`
exceptions are modelled with `Except` / `Option`.
-/

/-- One response of the `search().list` pagination endpoint: either a page of
video identifiers together with an optional continuation token, or a
transport error (`HttpError`). -/
inductive PageResp where
  | page (items : List String) (nextTok : Option Nat)
  | httpError
deriving DecidableEq

/-- The `while` loop of `get_channel_videos` (youtube_exporter.py lines
82-108): while fewer than `maxResults` ids are accumulated, request
`min 50 remaining` ids at the current continuation token; append the returned
page; stop on a transport error, an empty page, or an absent continuation
token. -/
def get_channel_videos_loop (api : Option Nat → Nat → PageResp) (maxResults : Nat)
    (acc : List String) (tok : Option Nat) : List String :=
  if _h : acc.length < maxResults then
    match api tok (min 50 (maxResults - acc.length)) with
    | PageResp.httpError => acc
    | PageResp.page [] _ => acc
    | PageResp.page (x :: xs) none => acc ++ x :: xs
    | PageResp.page (x :: xs) (some t) =>
        get_channel_videos_loop api maxResults (acc ++ x :: xs) (some t)
  else acc
termination_by maxResults - acc.length
decreasing_by simp [List.length_append]; omega

/-- `get_channel_videos` (youtube_exporter.py lines 76-113): run the
pagination loop starting from an empty accumulator and no continuation
token, then truncate to `maxResults` (`video_ids[:max_results]`). -/
def get_channel_videos (api : Option Nat → Nat → PageResp) (maxResults : Nat) : List String :=
  (get_channel_videos_loop api maxResults [] none).take maxResults

/-- A well-behaved upstream server holding the channel video list `vids`:
a request at cursor `tok` (absent token means position 0) with page size
`reqMax` returns the next `reqMax` ids and a continuation token exactly when
more remain.  Used to state the no-error case of the collector claim. -/
def honestApi (vids : List String) : Option Nat → Nat → PageResp :=
  fun tok reqMax =>
    let p := tok.getD 0
    let items := (vids.drop p).take reqMax
    PageResp.page items
      (if p + items.length < vids.length then some (p + items.length) else none)

/-- A scripted upstream server: it serves the pages of `pages` in order
(each page advertising a continuation token) and fails with a transport
error once the script is exhausted.  Used to state the mid-pagination
error claim. -/
def scriptedApi (pages : List (List String)) : Option Nat → Nat → PageResp :=
  fun tok _ =>
    match pages[tok.getD 0]? with
    | some items => PageResp.page items (some (tok.getD 0 + 1))
    | none => PageResp.httpError

/-- The statement duration.replace of PT by nothing in `_parse_duration` (youtube_exporter.py
line 179): remove every occurrence of the two-character substring "PT",
scanning left to right. -/
def removePT : List Char → List Char
  | [] => []
  | [c] => [c]
  | a :: b :: rest =>
      if a = 'P' ∧ b = 'T' then removePT rest else a :: removePT (b :: rest)

/-- The regex search for digits followed by a unit letter `U`: scan left to right
keeping the value of the current maximal digit run; the first occurrence of
`u` immediately preceded by at least one digit yields the value of that run.
`none` models a failed search (whose `.group(1)` raises in Python). -/
def searchNumAux (u : Char) (cur : Nat) (has : Bool) : List Char → Option Nat
  | [] => none
  | c :: rest =>
      if c.isDigit then searchNumAux u (cur * 10 + (c.toNat - 48)) true rest
      else if c = u ∧ has then some cur
      else searchNumAux u 0 false rest

/-- `_parse_duration` (youtube_exporter.py lines 176-198): strip "PT", then
for each of H, M, S, if the letter occurs, extract the digits before it and
add the weighted value.  `none` models the `AttributeError` raised when the
letter occurs but no digits precede any occurrence. -/
def _parse_duration (s : String) : Option Nat :=
  let ds := removePT s.data
  let hPart : Option Nat :=
    if 'H' ∈ ds then (searchNumAux 'H' 0 false ds).map (· * 3600) else some 0
  let mPart : Option Nat :=
    if 'M' ∈ ds then (searchNumAux 'M' 0 false ds).map (· * 60) else some 0
  let sPart : Option Nat :=
    if 'S' ∈ ds then searchNumAux 'S' 0 false ds else some 0
  do
    let h ← hPart
    let m ← mPart
    let sec ← sPart
    return h + m + sec

/-- The `snippet` sub-dictionary of a video details payload.  Every key is
optional, as in a Python dict; square-bracket accesses such as snippet of title raise
`KeyError` when the key is absent, `snippet.get(...)` accesses default. -/
structure SnippetPayload where
  title : Option String
  publishedAt : Option String
  tags : Option (List String)
  description : Option String
deriving DecidableEq

/-- The `statistics` sub-dictionary of a video details payload. -/
structure StatisticsPayload where
  viewCount : Option String
  likeCount : Option String
  commentCount : Option String
deriving DecidableEq

/-- The `contentDetails` sub-dictionary of a video details payload. -/
structure ContentDetailsPayload where
  duration : Option String
deriving DecidableEq

/-- One item of a `videos().list` response. -/
structure VideoPayload where
  id : Option String
  snippet : Option SnippetPayload
  statistics : Option StatisticsPayload
  contentDetails : Option ContentDetailsPayload
deriving DecidableEq

/-- The flat record built by `_process_video_data` and written to the CSV. -/
structure VideoRecord where
  title : String
  video_id : String
  url : String
  view_count : String
  like_count : String
  comment_count : String
  publish_date : String
  duration_seconds : Nat
  description : String
  tags : String
  transcript : String
  content : String
deriving DecidableEq

/-- A Python `d['k']` dictionary access: the value when present, a
`KeyError` otherwise. -/
def require (o : Option α) (k : String) : Except String α :=
  match o with
  | some v => Except.ok v
  | none => Except.error ("KeyError: " ++ k)

/-- The newline replacement of `_process_video_data` (line 158):
replace every newline character by a space (a single-character Python
`str.replace` is a per-character map). -/
def replace_newlines (s : String) : String :=
  String.mk (s.data.map (fun c => if c = '\n' then ' ' else c))

/-- `_process_video_data` (youtube_exporter.py lines 142-174): flatten one
video payload into a `VideoRecord`.  Mandatory square-bracket accesses are
`require`; `.get(...)` accesses take defaults; the duration string is parsed
with `_parse_duration` (a failed search there raises, hence `Except`). -/
def _process_video_data (video : VideoPayload) : Except String VideoRecord := do
  let snippet ← require video.snippet "snippet"
  let statistics ← require video.statistics "statistics"
  let content_details ← require video.contentDetails "contentDetails"
  let durationStr ← require content_details.duration "duration"
  let duration ← match _parse_duration durationStr with
    | some n => Except.ok n
    | none => Except.error "AttributeError"
  let publishedAt ← require snippet.publishedAt "publishedAt"
  let publish_date := publishedAt.take 10
  let tags := match snippet.tags with
    | some ts => if ts.isEmpty then "" else String.intercalate "," ts
    | none => ""
  let description := replace_newlines (snippet.description.getD "")
  let transcript := description
  let title ← require snippet.title "title"
  let vid ← require video.id "id"
  Except.ok
    { title := title
      video_id := vid
      url := "https://www.youtube.com/watch?v=" ++ vid
      view_count := statistics.viewCount.getD "0"
      like_count := statistics.likeCount.getD "0"
      comment_count := statistics.commentCount.getD "0"
      publish_date := publish_date
      duration_seconds := duration
      description := description
      tags := tags
      transcript := transcript
      content := description }

/-- The batch slicing of `get_video_details` (youtube_exporter.py line
120-121): `for i in range(0, len(video_ids), 50): batch = video_ids[i:i+50]`
— consecutive chunks of at most 50 identifiers. -/
def chunksOf50 (ids : List String) : List (List String) :=
  if _h : ids = [] then []
  else ids.take 50 :: chunksOf50 (ids.drop 50)
termination_by ids.length
decreasing_by
  have : ids.length ≠ 0 := fun hn => _h (List.length_eq_zero.mp hn)
  simp [List.length_drop]
  omega

/-- The inner `for video in items` loop of `get_video_details` (lines
131-133): flatten each returned item in order; a `KeyError` raised by the
flattener propagates out of the whole call. -/
def processItems : List VideoPayload → Except String (List VideoRecord)
  | [] => Except.ok []
  | p :: ps => do
      let r ← _process_video_data p
      let rs ← processItems ps
      Except.ok (r :: rs)

/-- `get_video_details` (youtube_exporter.py lines 115-140): process the
identifiers in chunks of 50; per chunk, issue one details request (`api`;
`none` models a caught `HttpError`, whose chunk is skipped), flatten the
returned items, and accumulate.  The second component is the trace of
request batches actually issued, in order. -/
def get_video_details (api : List String → Option (List VideoPayload))
    (ids : List String) : Except String (List VideoRecord) × List (List String) :=
  if _h : ids = [] then (Except.ok [], [])
  else
    let batch := ids.take 50
    match api batch with
    | none =>
        let r := get_video_details api (ids.drop 50)
        (r.1, batch :: r.2)
    | some payloads =>
        match processItems payloads with
        | Except.error e => (Except.error e, [batch])
        | Except.ok recs =>
            let r := get_video_details api (ids.drop 50)
            (r.1.map (fun others => recs ++ others), batch :: r.2)
termination_by ids.length
decreasing_by
  all_goals
    have : ids.length ≠ 0 := fun hn => _h (List.length_eq_zero.mp hn)
    simp [List.length_drop]
    omega

/-- Per-chunk contribution stated by the spec: a chunk whose request fails
contributes nothing, a successful chunk contributes the records of its
flattenable items in order. -/
def chunkRecords (api : List String → Option (List VideoPayload))
    (c : List String) : List VideoRecord :=
  match api c with
  | none => []
  | some ps => ps.filterMap (fun p => (_process_video_data p).toOption)

/-- A character forcing CSV quoting under the default `QUOTE_MINIMAL`
dialect: the delimiter, the quote character, or a line-terminator
character. -/
def isSpecial (c : Char) : Bool :=
  c = ',' || c = '"' || c = '\r' || c = '\n'

/-- CSV quote escaping: each quote character is doubled. -/
def escapeQuotes : List Char → List Char
  | [] => []
  | c :: rest =>
      if c = '"' then '"' :: '"' :: escapeQuotes rest
      else c :: escapeQuotes rest

/-- One CSV field under `QUOTE_MINIMAL`: quoted (with doubled inner quotes)
exactly when it contains a special character. -/
def renderField (f : List Char) : List Char :=
  if f.any isSpecial then '"' :: (escapeQuotes f ++ ['"']) else f

/-- The delimiter join of the rendered fields of one row. -/
def joinFields : List (List Char) → List Char
  | [] => []
  | [f] => renderField f
  | f :: rest => renderField f ++ ',' :: joinFields rest

/-- One CSV row: delimiter-joined fields terminated by CRLF (the `csv`
module default line terminator, written unchanged thanks to the empty
newline argument of open). -/
def renderRow (fs : List (List Char)) : List Char :=
  joinFields fs ++ ['\r', '\n']

/-- The full CSV file body: the rows in order (the header row is passed as
the first row by `export_to_csv`). -/
def renderFile (rows : List (List (List Char))) : List Char :=
  (rows.map renderRow).flatten

/-- Modelled from the spec: the repository has no CSV reader ("reading the
file back" in the round-trip property), so this is a standard CSV reader —
a character automaton over the file with a quoted-field mode, doubled-quote
unescaping, comma field separation and CRLF record separation; a final
empty fragment after the last CRLF yields no extra row. -/
def csvAux : Bool → List Char → List (List Char) → List (List (List Char)) →
    List Char → List (List (List Char))
  | true, field, row, rows, [] => ((field.reverse :: row).reverse :: rows).reverse
  | true, field, row, rows, c :: input =>
      if c = '"' then
        match _hm : input with
        | c2 :: input2 =>
            if c2 = '"' then csvAux true ('"' :: field) row rows input2
            else csvAux false field row rows input
        | [] => csvAux false field row rows []
      else csvAux true (c :: field) row rows input
  | false, field, row, rows, [] =>
      if field = [] ∧ row = [] then rows.reverse
      else ((field.reverse :: row).reverse :: rows).reverse
  | false, field, row, rows, c :: input =>
      if c = ',' then csvAux false [] (field.reverse :: row) rows input
      else if c = '\r' then
        match _hm : input with
        | c2 :: input2 =>
            if c2 = '\n' then
              csvAux false [] [] ((field.reverse :: row).reverse :: rows) input2
            else csvAux false (c :: field) row rows input
        | [] => csvAux false (c :: field) row rows []
      else if c = '"' then
        if field = [] then csvAux true field row rows input
        else csvAux false (c :: field) row rows input
      else csvAux false (c :: field) row rows input
termination_by _ _ _ _ l => l.length
decreasing_by all_goals ((try subst _hm); (try simp [List.length_cons]); (try omega))

/-- Modelled from the spec: parse a CSV file into its rows of fields. -/
def parseCSV (s : String) : List (List String) :=
  (csvAux false [] [] [] s.data).map (fun row => row.map (fun f => String.mk f))

/-- The fixed CSV column list of `export_to_csv` (youtube_exporter.py lines
237-241). -/
def fieldnames : List String :=
  ["title", "video_id", "url", "view_count", "like_count",
   "comment_count", "publish_date", "duration_seconds",
   "description", "tags", "transcript", "content"]

/-- The values of one record in `fieldnames` order, as written by
`csv.DictWriter.writerows` (the integer `duration_seconds` is stringified,
as `str()` does). -/
def recordRow (r : VideoRecord) : List String :=
  [r.title, r.video_id, r.url, r.view_count, r.like_count,
   r.comment_count, r.publish_date, Nat.repr r.duration_seconds,
   r.description, r.tags, r.transcript, r.content]

/-- `export_to_csv` (youtube_exporter.py lines 230-248), modelled as the
content of the written file: a header row of the 12 field names followed by
one row per record. -/
def export_to_csv (records : List VideoRecord) : String :=
  String.mk (renderFile
    ((fieldnames :: records.map recordRow).map (fun row => row.map String.data)))

/-- The channel.startswith test of both entry points: the first two
characters are "UC". -/
def startsWithUC (s : String) : Bool :=
  match s.data with
  | 'U' :: 'C' :: _ => true
  | _ => false

/-- Channel-argument handling of the command-line entry point (`run.py`
lines 33-36): an argument with prefix "UC" and length exactly 24 is used
verbatim, anything else goes through the resolver
(`get_channel_id_from_username`). -/
def run_main_channel_id (resolver : String → Option String) (channel : String) :
    Option String :=
  if startsWithUC channel ∧ channel.length = 24 then some channel
  else resolver channel

/-- Channel-argument handling of the dashboard entry point
(youtube_exporter.py lines 353-359), identical in logic to `run.py`. -/
def app_main_channel_id (resolver : String → Option String) (channel : String) :
    Option String :=
  if startsWithUC channel ∧ channel.length = 24 then some channel
  else resolver channel

/-- Reduction of an `Except` bind on a success value. -/
theorem except_bind_ok (a : α) (f : α → Except ε β) :
    (Except.ok a >>= f : Except ε β) = f a := rfl

/-- Reduction of an `Except` bind on an error value. -/
theorem except_bind_error (e : ε) (f : α → Except ε β) :
    (Except.error e >>= f : Except ε β) = Except.error e := rfl

/-- Success characterization of the flattener: a payload flattens to `ok r`
exactly when all mandatory keys are present and the duration parses, and
then `r` is the record built from them. -/
theorem process_video_ok_elim (p : VideoPayload) (r : VideoRecord)
    (h : _process_video_data p = Except.ok r) :
    ∃ vid snip stats cdur title pa n,
      p.id = some vid ∧ p.snippet = some snip ∧ p.statistics = some stats ∧
      p.contentDetails = some (ContentDetailsPayload.mk (some cdur)) ∧
      snip.title = some title ∧ snip.publishedAt = some pa ∧
      _parse_duration cdur = some n ∧
      r = { title := title, video_id := vid,
            url := "https://www.youtube.com/watch?v=" ++ vid,
            view_count := stats.viewCount.getD "0",
            like_count := stats.likeCount.getD "0",
            comment_count := stats.commentCount.getD "0",
            publish_date := pa.take 10, duration_seconds := n,
            description := replace_newlines (snip.description.getD ""),
            tags := match snip.tags with
              | some ts => if ts.isEmpty then "" else String.intercalate "," ts
              | none => "",
            transcript := replace_newlines (snip.description.getD ""),
            content := replace_newlines (snip.description.getD "") } := by
  obtain ⟨pid, psnip, pstats, pcd⟩ := p
  cases psnip with
  | none => simp [_process_video_data, require, except_bind_ok, except_bind_error] at h
  | some snip =>
  cases pstats with
  | none => simp [_process_video_data, require, except_bind_ok, except_bind_error] at h
  | some stats =>
  cases pcd with
  | none => simp [_process_video_data, require, except_bind_ok, except_bind_error] at h
  | some cd =>
  obtain ⟨cdur⟩ := cd
  cases cdur with
  | none => simp [_process_video_data, require, except_bind_ok, except_bind_error] at h
  | some cdur =>
  cases hdur : _parse_duration cdur with
  | none => simp [_process_video_data, require, except_bind_ok, except_bind_error, hdur] at h
  | some n =>
  obtain ⟨stitle, spa, stags, sdesc⟩ := snip
  cases spa with
  | none => simp [_process_video_data, require, except_bind_ok, except_bind_error, hdur] at h
  | some pa =>
  cases stitle with
  | none => simp [_process_video_data, require, except_bind_ok, except_bind_error, hdur] at h
  | some title =>
  cases pid with
  | none => simp [_process_video_data, require, except_bind_ok, except_bind_error, hdur] at h
  | some vid =>
  simp only [_process_video_data, require, hdur, except_bind_ok] at h
  refine ⟨vid, ⟨some title, some pa, stags, sdesc⟩, stats, cdur, title, pa, n,
    rfl, rfl, rfl, rfl, rfl, rfl, hdur, ?_⟩
  cases h
  rfl

/-- The flattener computed on a payload whose mandatory keys are all
present. -/
theorem process_video_eval (vid : String) (stitle spa : String)
    (stags : Option (List String)) (sdesc : Option String)
    (stats : StatisticsPayload) (cdur : String) (n : Nat)
    (hdur : _parse_duration cdur = some n) :
    _process_video_data
      (VideoPayload.mk (some vid)
        (some (SnippetPayload.mk (some stitle) (some spa) stags sdesc))
        (some stats) (some (ContentDetailsPayload.mk (some cdur)))) =
      Except.ok
        { title := stitle, video_id := vid,
          url := "https://www.youtube.com/watch?v=" ++ vid,
          view_count := stats.viewCount.getD "0",
          like_count := stats.likeCount.getD "0",
          comment_count := stats.commentCount.getD "0",
          publish_date := spa.take 10, duration_seconds := n,
          description := replace_newlines (sdesc.getD ""),
          tags := match stags with
            | some ts => if ts.isEmpty then "" else String.intercalate "," ts
            | none => "",
          transcript := replace_newlines (sdesc.getD ""),
          content := replace_newlines (sdesc.getD "") } := by
  simp [_process_video_data, require, hdur, except_bind_ok]

/-- A details payload in which only the mandatory key `snippet.title` is
missing. -/
def titlelessPayload : VideoPayload :=
  VideoPayload.mk (some "vid01")
    (some (SnippetPayload.mk none (some "2024-05-01T00:00:00Z") none none))
    (some (StatisticsPayload.mk (some "10") none none))
    (some (ContentDetailsPayload.mk (some "PT1M")))

/-- C2 counterexample: the flattening is not total on payloads with missing
fields — a payload missing `snippet.title` makes `_process_video_data`
raise (`KeyError`) instead of returning a defaulted record. -/
theorem process_video_data_raises_on_missing_title :
    _process_video_data titlelessPayload = Except.error "KeyError: title" := rfl

/-- C2 (amended): the flattening is total in the optional fields: whenever
the mandatory keys (`id`, `snippet`, `statistics`, `contentDetails`,
`snippet.title`, `snippet.publishedAt`, a parseable
`contentDetails.duration`) are present, it returns a record without
raising, the numeric statistics defaulting to "0" and description/tags
defaulting to empty when absent; a payload missing a mandatory key (for
example `snippet.title`) raises instead. -/
theorem process_video_data_optional_defaults (p : VideoPayload) (vid : String)
    (snip : SnippetPayload) (stats : StatisticsPayload) (cdur title pa : String) (n : Nat)
    (hid : p.id = some vid) (hsnip : p.snippet = some snip)
    (hstats : p.statistics = some stats)
    (hcd : p.contentDetails = some (ContentDetailsPayload.mk (some cdur)))
    (ht : snip.title = some title) (hpa : snip.publishedAt = some pa)
    (hdur : _parse_duration cdur = some n) :
    ∃ r, _process_video_data p = Except.ok r ∧
      r.view_count = stats.viewCount.getD "0" ∧
      r.like_count = stats.likeCount.getD "0" ∧
      r.comment_count = stats.commentCount.getD "0" ∧
      r.description = replace_newlines (snip.description.getD "") ∧
      r.tags = String.intercalate "," (snip.tags.getD []) := by
  obtain ⟨stitle, spa, stags, sdesc⟩ := snip
  obtain ⟨pid, psnip, pstats, pcd⟩ := p
  simp only [Option.some.injEq] at hid hsnip hstats hcd ht hpa
  subst hid hsnip hstats hcd
  simp only [SnippetPayload.mk.injEq] at *
  subst ht hpa
  refine ⟨_, process_video_eval vid title pa stags sdesc stats cdur n hdur, rfl, rfl, rfl, rfl, ?_⟩
  cases stags with
  | none => rfl
  | some ts =>
    cases ts with
    | nil => rfl
    | cons a l => simp [List.isEmpty]

/-- Witness for the amended C2 at a payload whose `statistics.likeCount`,
`statistics.commentCount`, tags and description are absent. -/
theorem process_video_data_optional_defaults_witness :
    ∃ r, _process_video_data
        (VideoPayload.mk (some "abc")
          (some (SnippetPayload.mk (some "T") (some "2024-05-01T00:00:00Z") none none))
          (some (StatisticsPayload.mk (some "5") none none))
          (some (ContentDetailsPayload.mk (some "PT45S")))) = Except.ok r ∧
      r.view_count = (some "5").getD "0" ∧
      r.like_count = (Option.none).getD "0" ∧
      r.comment_count = (Option.none).getD "0" ∧
      r.description = replace_newlines ((Option.none).getD "") ∧
      r.tags = String.intercalate "," ((Option.none).getD []) :=
  process_video_data_optional_defaults _ "abc"
    (SnippetPayload.mk (some "T") (some "2024-05-01T00:00:00Z") none none)
    (StatisticsPayload.mk (some "5") none none) "PT45S" "T" "2024-05-01T00:00:00Z" 45
    rfl rfl rfl rfl rfl rfl (by decide)

/-- C7: every successfully flattened record has the date-truncated publish
date, the comma-joined tags (empty when absent), the newline-cleaned
description, and that same description as transcript and content. -/
theorem process_video_data_fields (p : VideoPayload) (snip : SnippetPayload)
    (pa : String) (r : VideoRecord)
    (hsnip : p.snippet = some snip) (hpa : snip.publishedAt = some pa)
    (h : _process_video_data p = Except.ok r) :
    r.publish_date = pa.take 10 ∧
    r.tags = String.intercalate "," (snip.tags.getD []) ∧
    r.description = replace_newlines (snip.description.getD "") ∧
    r.transcript = r.description ∧ r.content = r.description := by
  obtain ⟨vid, snip2, stats, cdur, title, pa2, n, _, hsnip2, _, _, _, hpa2, _, hr⟩ :=
    process_video_ok_elim p r h
  rw [hsnip] at hsnip2
  cases hsnip2
  rw [hpa] at hpa2
  cases hpa2
  subst hr
  refine ⟨by simp only [], ?_, by simp only [], by simp only [], by simp only []⟩
  simp only []
  cases htg : snip.tags with
  | none => rfl
  | some ts =>
    cases ts with
    | nil => rfl
    | cons a l => simp

/-- A fully populated details payload with tags and a multi-line
description. -/
def fullPayload : VideoPayload :=
  VideoPayload.mk (some "abc123")
    (some (SnippetPayload.mk (some "Title") (some "2024-05-01T00:00:00Z")
      (some ["x", "y"]) (some "line1\nline2")))
    (some (StatisticsPayload.mk (some "10") none (some "2")))
    (some (ContentDetailsPayload.mk (some "PT1H2M3S")))

/-- The record that `fullPayload` flattens to. -/
def fullRecord : VideoRecord :=
  VideoRecord.mk "Title" "abc123" "https://www.youtube.com/watch?v=abc123"
    "10" "0" "2" "2024-05-01" 3723 "line1 line2" "x,y" "line1 line2" "line1 line2"

/-- Witness for C7 at a concrete payload with tags and a multi-line
description. -/
theorem process_video_data_fields_witness :
    fullRecord.publish_date = ("2024-05-01T00:00:00Z" : String).take 10 ∧
    fullRecord.tags =
      String.intercalate ","
        ((SnippetPayload.mk (some "Title") (some "2024-05-01T00:00:00Z")
          (some ["x", "y"]) (some "line1\nline2")).tags.getD []) ∧
    fullRecord.description =
      replace_newlines
        ((SnippetPayload.mk (some "Title") (some "2024-05-01T00:00:00Z")
          (some ["x", "y"]) (some "line1\nline2")).description.getD "") ∧
    fullRecord.transcript = fullRecord.description ∧
    fullRecord.content = fullRecord.description :=
  process_video_data_fields fullPayload
    (SnippetPayload.mk (some "Title") (some "2024-05-01T00:00:00Z")
      (some ["x", "y"]) (some "line1\nline2"))
    "2024-05-01T00:00:00Z" fullRecord rfl rfl rfl

/-- C10: the url of every flattened record is the watch-URL base followed by its
own video id. -/
theorem video_record_url (p : VideoPayload) (r : VideoRecord)
    (h : _process_video_data p = Except.ok r) :
    r.url = "https://www.youtube.com/watch?v=" ++ r.video_id := by
  obtain ⟨vid, snip, stats, cdur, title, pa, n, _, _, _, _, _, _, _, hr⟩ :=
    process_video_ok_elim p r h
  subst hr
  rfl

/-- Witness for C10 on the flattening of `fullPayload`. -/
theorem video_record_url_witness :
    fullRecord.url = "https://www.youtube.com/watch?v=" ++ fullRecord.video_id :=
  video_record_url fullPayload fullRecord rfl

/-- C9: an argument with the "UC" prefix and length 24 is used verbatim by
both entry points, independently of the resolver; any other argument is
resolved by the resolver. -/
theorem channel_arg_dispatch (resolver : String → Option String) (channel : String) :
    (startsWithUC channel ∧ channel.length = 24 →
      run_main_channel_id resolver channel = some channel ∧
      app_main_channel_id resolver channel = some channel) ∧
    (¬(startsWithUC channel ∧ channel.length = 24) →
      run_main_channel_id resolver channel = resolver channel ∧
      app_main_channel_id resolver channel = resolver channel) := by
  constructor <;> intro h <;>
    simp [run_main_channel_id, app_main_channel_id, h]

/-- Witness for C9: a 24-character "UC…" id bypasses the resolver in both
entry points; "@samplechannel" goes through the resolver. -/
theorem channel_arg_dispatch_witness :
    (run_main_channel_id (fun _ => some "resolved") "UCabcdefghijklmnopqrstuv" =
        some "UCabcdefghijklmnopqrstuv" ∧
      app_main_channel_id (fun _ => some "resolved") "UCabcdefghijklmnopqrstuv" =
        some "UCabcdefghijklmnopqrstuv") ∧
    (run_main_channel_id (fun _ => some "resolved") "@samplechannel" =
        (fun _ => some "resolved") "@samplechannel" ∧
      app_main_channel_id (fun _ => some "resolved") "@samplechannel" =
        (fun _ => some "resolved") "@samplechannel") := by
  constructor
  · exact (channel_arg_dispatch (fun _ => some "resolved") "UCabcdefghijklmnopqrstuv").1
      (by decide)
  · exact (channel_arg_dispatch (fun _ => some "resolved") "@samplechannel").2
      (by decide)

/-- The numeric value of a run of decimal digit characters, as Python
`int()` computes it. -/
def digitsVal (ds : List Char) : Nat :=
  ds.foldl (fun a c => a * 10 + (c.toNat - 48)) 0

/-- The characters contributed to a duration token by one optional
component: its digits followed by its unit letter, or nothing. -/
def componentChars : Option (List Char) → Char → List Char
  | none, _ => []
  | some ds, u => ds ++ [u]

/-- The seconds value of one optional component. -/
def compVal : Option (List Char) → Nat
  | none => 0
  | some ds => digitsVal ds

/-- A well-formed optional component: a non-empty run of digits when
present. -/
def goodComp (comp : Option (List Char)) : Prop :=
  ∀ d, comp = some d → d ≠ [] ∧ ∀ c ∈ d, c.isDigit

/-- Scanning a run of digits folds it into the accumulator and marks the
digit-run flag. -/
theorem searchNumAux_digits (u : Char) (d : List Char) (hd : ∀ c ∈ d, c.isDigit) :
    ∀ (cur : Nat) (has : Bool) (rest : List Char),
      searchNumAux u cur has (d ++ rest) =
        searchNumAux u (d.foldl (fun a c => a * 10 + (c.toNat - 48)) cur)
          (if d.isEmpty then has else true) rest := by
  induction d with
  | nil => intro cur has rest; simp
  | cons c cs ih =>
      intro cur has rest
      have hc : c.isDigit := hd c (by simp)
      simp only [List.cons_append, searchNumAux, hc, if_pos, List.append_eq]
      rw [ih (fun x hx => hd x (by simp [hx]))]
      simp

/-- A digit run followed by the searched unit yields the value of the run. -/
theorem searchNumAux_hit (u : Char) (d rest : List Char) (hne : d ≠ [])
    (hd : ∀ c ∈ d, c.isDigit) (hu : u.isDigit = false) :
    searchNumAux u 0 false (d ++ u :: rest) = some (digitsVal d) := by
  rw [searchNumAux_digits u d hd 0 false (u :: rest)]
  have he : d.isEmpty = false := by
    cases d with
    | nil => exact absurd rfl hne
    | cons a t => rfl
  rw [he]
  simp [searchNumAux, hu, digitsVal]

/-- A digit run followed by a foreign unit letter is skipped, resetting the
scan state. -/
theorem searchNumAux_skip (u uf : Char) (d rest : List Char)
    (hd : ∀ c ∈ d, c.isDigit) (hu : uf.isDigit = false) (hne : uf ≠ u) :
    searchNumAux u 0 false (d ++ uf :: rest) = searchNumAux u 0 false rest := by
  rw [searchNumAux_digits u d hd 0 false (uf :: rest)]
  simp [searchNumAux, hu, hne]

/-- `removePT` is the identity on strings without the letter P. -/
theorem removePT_eq_self (l : List Char) (h : ∀ c ∈ l, c ≠ 'P') :
    removePT l = l := by
  induction l with
  | nil => rfl
  | cons a t ih =>
      cases t with
      | nil => rfl
      | cons b t2 =>
          have ha : a ≠ 'P' := h a (by simp)
          rw [removePT, if_neg (by simp [ha])]
          rw [ih (fun c hc => h c (by simp [hc]))]

/-- Any character of a well-formed component is a digit or its unit. -/
theorem mem_componentChars_elim {c : Char} {comp : Option (List Char)} {u : Char}
    (hg : goodComp comp) (h : c ∈ componentChars comp u) :
    c.isDigit = true ∨ c = u := by
  cases comp with
  | none => simp [componentChars] at h
  | some d =>
      simp only [componentChars, List.mem_append, List.mem_singleton] at h
      cases h with
      | inl hm => exact Or.inl ((hg d rfl).2 c hm)
      | inr he => exact Or.inr he

/-- Stripping the "PT" header. -/
theorem removePT_header (l : List Char) : removePT ('P' :: 'T' :: l) = removePT l := by
  simp [removePT]

/-- Every character of a well-formed duration body is a digit or a unit
letter. -/
theorem body_chars_elim {hc mc sc : Option (List Char)} {c : Char}
    (gh : goodComp hc) (gm : goodComp mc) (gs : goodComp sc)
    (h : c ∈ componentChars hc 'H' ++ (componentChars mc 'M' ++ componentChars sc 'S')) :
    c.isDigit = true ∨ c = 'H' ∨ c = 'M' ∨ c = 'S' := by
  simp only [List.mem_append] at h
  rcases h with h | h | h
  · rcases mem_componentChars_elim gh h with hd | he
    · exact Or.inl hd
    · exact Or.inr (Or.inl he)
  · rcases mem_componentChars_elim gm h with hd | he
    · exact Or.inl hd
    · exact Or.inr (Or.inr (Or.inl he))
  · rcases mem_componentChars_elim gs h with hd | he
    · exact Or.inl hd
    · exact Or.inr (Or.inr (Or.inr he))

/-- The hour contribution of `_parse_duration` on a well-formed body. -/
theorem hPart_eval (hc mc sc : Option (List Char))
    (gh : goodComp hc) (gm : goodComp mc) (gs : goodComp sc) :
    (if 'H' ∈ componentChars hc 'H' ++ (componentChars mc 'M' ++ componentChars sc 'S')
      then (searchNumAux 'H' 0 false
        (componentChars hc 'H' ++ (componentChars mc 'M' ++ componentChars sc 'S'))).map
          (· * 3600)
      else some 0) = some (compVal hc * 3600) := by
  cases hc with
  | none =>
      rw [if_neg]
      · simp [compVal]
      · intro hmem
        simp only [componentChars, List.nil_append, List.mem_append] at hmem
        rcases hmem with hm | hm
        · rcases mem_componentChars_elim gm hm with hd | he
          · exact absurd hd (by decide)
          · exact absurd he (by decide)
        · rcases mem_componentChars_elim gs hm with hd | he
          · exact absurd hd (by decide)
          · exact absurd he (by decide)
  | some d =>
      obtain ⟨hne, hdig⟩ := gh d rfl
      have hbody : componentChars (some d) 'H' ++ (componentChars mc 'M' ++ componentChars sc 'S')
          = d ++ 'H' :: (componentChars mc 'M' ++ componentChars sc 'S') := by
        simp [componentChars, List.append_assoc]
      rw [hbody, if_pos (by simp), searchNumAux_hit 'H' d _ hne hdig (by decide)]
      simp [compVal]

/-- The minute contribution of `_parse_duration` on a well-formed body. -/
theorem mPart_eval (hc mc sc : Option (List Char))
    (gh : goodComp hc) (gm : goodComp mc) (gs : goodComp sc) :
    (if 'M' ∈ componentChars hc 'H' ++ (componentChars mc 'M' ++ componentChars sc 'S')
      then (searchNumAux 'M' 0 false
        (componentChars hc 'H' ++ (componentChars mc 'M' ++ componentChars sc 'S'))).map
          (· * 60)
      else some 0) = some (compVal mc * 60) := by
  cases mc with
  | none =>
      rw [if_neg]
      · simp [compVal]
      · intro hmem
        simp only [componentChars, List.nil_append, List.mem_append] at hmem
        rcases hmem with hm | hm
        · rcases mem_componentChars_elim gh hm with hd | he
          · exact absurd hd (by decide)
          · exact absurd he (by decide)
        · rcases mem_componentChars_elim gs hm with hd | he
          · exact absurd hd (by decide)
          · exact absurd he (by decide)
  | some d =>
      obtain ⟨hne, hdig⟩ := gm d rfl
      have hmem : 'M' ∈ componentChars hc 'H' ++
          (componentChars (some d) 'M' ++ componentChars sc 'S') := by
        simp [componentChars]
      rw [if_pos hmem]
      cases hc with
      | none =>
          have hbody : componentChars none 'H' ++
              (componentChars (some d) 'M' ++ componentChars sc 'S')
              = d ++ 'M' :: componentChars sc 'S' := by
            simp [componentChars, List.append_assoc]
          rw [hbody, searchNumAux_hit 'M' d _ hne hdig (by decide)]
          simp [compVal]
      | some dh =>
          obtain ⟨hneh, hdigh⟩ := gh dh rfl
          have hbody : componentChars (some dh) 'H' ++
              (componentChars (some d) 'M' ++ componentChars sc 'S')
              = dh ++ 'H' :: (d ++ 'M' :: componentChars sc 'S') := by
            simp [componentChars, List.append_assoc]
          rw [hbody, searchNumAux_skip 'M' 'H' dh _ hdigh (by decide) (by decide),
            searchNumAux_hit 'M' d _ hne hdig (by decide)]
          simp [compVal]

/-- The second contribution of `_parse_duration` on a well-formed body. -/
theorem sPart_eval (hc mc sc : Option (List Char))
    (gh : goodComp hc) (gm : goodComp mc) (gs : goodComp sc) :
    (if 'S' ∈ componentChars hc 'H' ++ (componentChars mc 'M' ++ componentChars sc 'S')
      then searchNumAux 'S' 0 false
        (componentChars hc 'H' ++ (componentChars mc 'M' ++ componentChars sc 'S'))
      else some 0) = some (compVal sc) := by
  cases sc with
  | none =>
      rw [if_neg]
      · simp [compVal]
      · intro hmem
        simp only [componentChars, List.nil_append, List.append_nil, List.mem_append] at hmem
        rcases hmem with hm | hm
        · rcases mem_componentChars_elim gh hm with hd | he
          · exact absurd hd (by decide)
          · exact absurd he (by decide)
        · rcases mem_componentChars_elim gm hm with hd | he
          · exact absurd hd (by decide)
          · exact absurd he (by decide)
  | some d =>
      obtain ⟨hne, hdig⟩ := gs d rfl
      have hmem : 'S' ∈ componentChars hc 'H' ++
          (componentChars mc 'M' ++ componentChars (some d) 'S') := by
        simp [componentChars]
      rw [if_pos hmem]
      have hhit : searchNumAux 'S' 0 false (d ++ 'S' :: []) = some (digitsVal d) :=
        searchNumAux_hit 'S' d [] hne hdig (by decide)
      cases hc with
      | none =>
          cases mc with
          | none =>
              have hbody : componentChars none 'H' ++
                  (componentChars none 'M' ++ componentChars (some d) 'S')
                  = d ++ 'S' :: [] := by simp [componentChars]
              rw [hbody, hhit]; rfl
          | some dm =>
              obtain ⟨hnem, hdigm⟩ := gm dm rfl
              have hbody : componentChars none 'H' ++
                  (componentChars (some dm) 'M' ++ componentChars (some d) 'S')
                  = dm ++ 'M' :: (d ++ 'S' :: []) := by
                simp [componentChars, List.append_assoc]
              rw [hbody, searchNumAux_skip 'S' 'M' dm _ hdigm (by decide) (by decide), hhit]
              rfl
      | some dh =>
          obtain ⟨hneh, hdigh⟩ := gh dh rfl
          cases mc with
          | none =>
              have hbody : componentChars (some dh) 'H' ++
                  (componentChars none 'M' ++ componentChars (some d) 'S')
                  = dh ++ 'H' :: (d ++ 'S' :: []) := by
                simp [componentChars, List.append_assoc]
              rw [hbody, searchNumAux_skip 'S' 'H' dh _ hdigh (by decide) (by decide), hhit]
              rfl
          | some dm =>
              obtain ⟨hnem, hdigm⟩ := gm dm rfl
              have hbody : componentChars (some dh) 'H' ++
                  (componentChars (some dm) 'M' ++ componentChars (some d) 'S')
                  = dh ++ 'H' :: (dm ++ 'M' :: (d ++ 'S' :: [])) := by
                simp [componentChars, List.append_assoc]
              rw [hbody, searchNumAux_skip 'S' 'H' dh _ hdigh (by decide) (by decide),
                searchNumAux_skip 'S' 'M' dm _ hdigm (by decide) (by decide), hhit]
              rfl

/-- C3: on a duration token "PT[nH][nM][nS]" whose present components are
bare non-empty digit runs, `_parse_duration` returns hours*3600 +
minutes*60 + seconds, an absent component contributing 0. -/
theorem parse_duration_components (hc mc sc : Option (List Char))
    (gh : goodComp hc) (gm : goodComp mc) (gs : goodComp sc) :
    _parse_duration (String.mk ('P' :: 'T' ::
        (componentChars hc 'H' ++ (componentChars mc 'M' ++ componentChars sc 'S')))) =
      some (compVal hc * 3600 + compVal mc * 60 + compVal sc) := by
  have hno : ∀ c ∈ componentChars hc 'H' ++ (componentChars mc 'M' ++ componentChars sc 'S'),
      c ≠ 'P' := by
    intro c hcm hP
    subst hP
    rcases body_chars_elim gh gm gs hcm with hd | he | he | he
    · exact absurd hd (by decide)
    · exact absurd he (by decide)
    · exact absurd he (by decide)
    · exact absurd he (by decide)
  simp only [_parse_duration]
  rw [removePT_header, removePT_eq_self _ hno]
  rw [hPart_eval hc mc sc gh gm gs, mPart_eval hc mc sc gh gm gs,
    sPart_eval hc mc sc gh gm gs]
  simp

set_option maxRecDepth 4000 in
/-- Witness for C3 at the four spec examples. -/
theorem parse_duration_components_witness :
    _parse_duration "PT1H2M3S" = some 3723 ∧ _parse_duration "PT45S" = some 45 ∧
    _parse_duration "PT2H" = some 7200 ∧ _parse_duration "PT" = some 0 := by
  have g0 : goodComp none := fun d hd => by cases hd
  refine ⟨?_, ?_, ?_, ?_⟩
  · exact parse_duration_components (some ['1']) (some ['2']) (some ['3'])
      (fun d hd => by cases hd; exact ⟨by decide, by decide⟩)
      (fun d hd => by cases hd; exact ⟨by decide, by decide⟩)
      (fun d hd => by cases hd; exact ⟨by decide, by decide⟩)
  · exact parse_duration_components none none (some ['4', '5']) g0 g0
      (fun d hd => by cases hd; exact ⟨by decide, by decide⟩)
  · exact parse_duration_components (some ['2']) none none
      (fun d hd => by cases hd; exact ⟨by decide, by decide⟩) g0 g0
  · exact parse_duration_components none none none g0 g0 g0

/-- Against the honest server, the pagination loop always accumulates at
least `N` identifiers (given the channel has at least `N`): each iteration
makes strict progress and the continuation token tracks the accumulator
length. -/
theorem loop_honest_ge (vids : List String) (N : Nat) (hN : N ≤ vids.length) :
    ∀ (k : Nat) (acc : List String) (tok : Option Nat),
      N - acc.length ≤ k → tok.getD 0 = acc.length →
      N ≤ (get_channel_videos_loop (honestApi vids) N acc tok).length := by
  intro k
  induction k with
  | zero =>
      intro acc tok hk htok
      have hge : ¬ acc.length < N := by omega
      rw [get_channel_videos_loop, dif_neg hge]
      omega
  | succ k ih =>
      intro acc tok hk htok
      by_cases hlt : acc.length < N
      · rw [get_channel_videos_loop, dif_pos hlt]
        simp only [honestApi, htok]
        have hlen : ((vids.drop acc.length).take (min 50 (N - acc.length))).length
            = min (min 50 (N - acc.length)) (vids.length - acc.length) := by
          simp [List.length_take, List.length_drop]
        have hpos : 0 < ((vids.drop acc.length).take (min 50 (N - acc.length))).length := by
          rw [hlen]; omega
        obtain ⟨x, xs, hx⟩ :
            ∃ x xs, (vids.drop acc.length).take (min 50 (N - acc.length)) = x :: xs := by
          cases hc : (vids.drop acc.length).take (min 50 (N - acc.length)) with
          | nil => rw [hc] at hpos; simp at hpos
          | cons x xs => exact ⟨x, xs, rfl⟩
        rw [hx] at hlen hpos ⊢
        by_cases hmore : acc.length + (x :: xs).length < vids.length
        · rw [if_pos hmore]
          show N ≤ (get_channel_videos_loop (honestApi vids) N (acc ++ x :: xs)
            (some (acc.length + (x :: xs).length))).length
          have hlapp : (acc ++ x :: xs).length = acc.length + (x :: xs).length := by
            simp
          refine ih (acc ++ x :: xs) (some (acc.length + (x :: xs).length)) ?_ ?_
          · rw [hlapp]
            simp only [List.length_cons] at hk ⊢
            omega
          · simp [hlapp]
        · rw [if_neg hmore]
          show N ≤ (acc ++ x :: xs).length
          simp only [List.length_append]
          omega
      · rw [get_channel_videos_loop, dif_neg hlt]
        omega

/-- C1: for every target count N, `get_channel_videos` returns at most N
identifiers whatever the server does; and against a well-behaved server for
a channel holding at least N videos it returns exactly N. -/
theorem get_channel_videos_count (N : Nat) (api : Option Nat → Nat → PageResp)
    (vids : List String) (h : N ≤ vids.length) :
    (get_channel_videos api N).length ≤ N ∧
    (get_channel_videos (honestApi vids) N).length = N := by
  constructor
  · simp [get_channel_videos, List.length_take]
  · have hge := loop_honest_ge vids N h N [] none (by simp) rfl
    simp only [get_channel_videos, List.length_take]
    omega

/-- Witness for C1: a three-video channel, two videos requested. -/
theorem get_channel_videos_count_witness :
    (get_channel_videos (honestApi ["a", "b", "c"]) 2).length ≤ 2 ∧
    (get_channel_videos (honestApi ["a", "b", "c"]) 2).length = 2 :=
  get_channel_videos_count 2 (honestApi ["a", "b", "c"]) ["a", "b", "c"] (by decide)

/-- Against a scripted server that fails once its pages run out, the loop
returns the accumulator extended by all remaining scripted pages (up to
truncation). -/
theorem loop_scripted (pages : List (List String)) (N : Nat)
    (hne : ∀ p ∈ pages, p ≠ []) :
    ∀ (rest : List (List String)) (i : Nat) (acc : List String) (tok : Option Nat),
      pages.drop i = rest → tok.getD 0 = i →
      (get_channel_videos_loop (scriptedApi pages) N acc tok).take N =
        (acc ++ rest.flatten).take N := by
  intro rest
  induction rest with
  | nil =>
      intro i acc tok hdrop htok
      by_cases hlt : acc.length < N
      · rw [get_channel_videos_loop, dif_pos hlt]
        have hget : pages[i]? = none := by
          refine List.getElem?_eq_none ?_
          have hlend := congrArg List.length hdrop
          simp [List.length_drop] at hlend
          omega
        simp only [scriptedApi, htok, hget]
        simp
      · rw [get_channel_videos_loop, dif_neg hlt]
        simp
  | cons p rest ih =>
      intro i acc tok hdrop htok
      have hmem : p ∈ pages := List.drop_subset i pages (by rw [hdrop]; exact List.mem_cons_self p rest)
      have hget : pages[i]? = some p := by
        have h0 : (pages.drop i)[0]? = some p := by rw [hdrop]; simp
        simpa [List.getElem?_drop] using h0
      obtain ⟨x, xs, hx⟩ : ∃ x xs, p = x :: xs := by
        cases p with
        | nil => exact absurd rfl (hne [] hmem)
        | cons x xs => exact ⟨x, xs, rfl⟩
      subst hx
      by_cases hlt : acc.length < N
      · rw [get_channel_videos_loop, dif_pos hlt]
        simp only [scriptedApi, htok, hget]
        show (get_channel_videos_loop (scriptedApi pages) N (acc ++ x :: xs)
            (some (i + 1))).take N = _
        rw [ih (i + 1) (acc ++ x :: xs) (some (i + 1)) ?_ rfl]
        · simp [List.append_assoc]
        · have hdd : pages.drop (i + 1) = (pages.drop i).drop 1 := by
            simp [List.drop_drop, Nat.add_comm]
          rw [hdd, hdrop]
          rfl
      · rw [get_channel_videos_loop, dif_neg hlt]
        rw [List.take_append_eq_append_take,
          Nat.sub_eq_zero_of_le (Nat.le_of_not_lt hlt)]
        simp

/-- C5: when the upstream fails mid-pagination (scripted server: it serves
its pages, then raises `HttpError`), `get_channel_videos` returns the
identifiers accumulated before the error, truncated to the requested
maximum — in particular everything accumulated, whenever fewer than the
maximum were reached — rather than raising. -/
theorem get_channel_videos_partial_on_error (pages : List (List String)) (N : Nat)
    (hne : ∀ p ∈ pages, p ≠ []) :
    get_channel_videos (scriptedApi pages) N = pages.flatten.take N ∧
    (pages.flatten.length ≤ N →
      get_channel_videos (scriptedApi pages) N = pages.flatten) := by
  have h := loop_scripted pages N hne pages 0 [] none (by simp) rfl
  have hmain : get_channel_videos (scriptedApi pages) N = pages.flatten.take N := by
    simpa [get_channel_videos] using h
  exact ⟨hmain, fun hlen => by rw [hmain]; exact List.take_of_length_le hlen⟩

/-- Witness for C5: two one-video pages, then an error, with five videos
requested. -/
theorem get_channel_videos_partial_on_error_witness :
    get_channel_videos (scriptedApi [["a"], ["b"]]) 5 =
      ([["a"], ["b"]] : List (List String)).flatten.take 5 ∧
    (([["a"], ["b"]] : List (List String)).flatten.length ≤ 5 →
      get_channel_videos (scriptedApi [["a"], ["b"]]) 5 =
        ([["a"], ["b"]] : List (List String)).flatten) :=
  get_channel_videos_partial_on_error [["a"], ["b"]] 5 (by decide)

/-- `processItems` succeeds on a list of flattenable payloads, returning
their records in order. -/
theorem processItems_ok (ps : List VideoPayload)
    (h : ∀ p ∈ ps, ∃ r, _process_video_data p = Except.ok r) :
    processItems ps =
      Except.ok (ps.filterMap (fun p => (_process_video_data p).toOption)) := by
  induction ps with
  | nil => rfl
  | cons p ps ih =>
      obtain ⟨r, hr⟩ := h p (by simp)
      have hrest := ih (fun q hq => h q (by simp [hq]))
      simp [processItems, hr, hrest, except_bind_ok, Except.toOption]

/-- The three partition facts about the batch slicing: chunk count is the
ceiling of M/50, every chunk has at most 50 elements, and the chunks
concatenate back to the input in order. -/
theorem chunksOf50_spec :
    ∀ (n : Nat) (ids : List String), ids.length ≤ n →
      (chunksOf50 ids).length = (ids.length + 49) / 50 ∧
      (∀ c ∈ chunksOf50 ids, c.length ≤ 50) ∧
      (chunksOf50 ids).flatten = ids := by
  intro n
  induction n with
  | zero =>
      intro ids h
      have hids : ids = [] := by
        cases ids with
        | nil => rfl
        | cons a t => simp at h
      subst hids
      rw [chunksOf50]
      simp
  | succ n ih =>
      intro ids h
      rw [chunksOf50]
      by_cases hids : ids = []
      · subst hids
        simp
      · rw [dif_neg hids]
        have hlen : 1 ≤ ids.length := List.length_pos.mpr hids
        have hdl : (ids.drop 50).length = ids.length - 50 := by simp
        obtain ⟨h1, h2, h3⟩ := ih (ids.drop 50) (by omega)
        refine ⟨?_, ?_, ?_⟩
        · simp only [List.length_cons, h1, hdl]
          omega
        · intro c hc
          rcases List.mem_cons.mp hc with hc | hc
          · subst hc
            simp [List.length_take]
          · exact h2 c hc
        · simp [h3, List.take_append_drop]

/-- With an api whose payloads all flatten, the trace of issued request
batches is exactly the 50-chunking of the input. -/
theorem get_video_details_trace :
    ∀ (n : Nat) (api : List String → Option (List VideoPayload)) (ids : List String),
      ids.length ≤ n →
      (∀ b ps, api b = some ps → ∀ p ∈ ps, ∃ r, _process_video_data p = Except.ok r) →
      (get_video_details api ids).2 = chunksOf50 ids := by
  intro n
  induction n with
  | zero =>
      intro api ids h _
      have hids : ids = [] := by
        cases ids with
        | nil => rfl
        | cons a t => simp at h
      subst hids
      rw [get_video_details, chunksOf50]
      simp
  | succ n ih =>
      intro api ids h H
      rw [get_video_details, chunksOf50]
      by_cases hids : ids = []
      · subst hids
        simp
      · rw [dif_neg hids, dif_neg hids]
        have hlen : 1 ≤ ids.length := List.length_pos.mpr hids
        have hdl : (ids.drop 50).length = ids.length - 50 := by simp
        have hrec := ih api (ids.drop 50) (by omega) H
        cases hapi : api (ids.take 50) with
        | none => simp [hapi, hrec]
        | some ps =>
            simp only [hapi]
            rw [processItems_ok ps (H _ ps hapi)]
            simp [hrec]

/-- C4: `get_video_details` issues exactly one request per chunk — the
request trace is the 50-chunking of its input — and that chunking has
ceil(M/50) chunks of size at most 50 whose concatenation is the input. -/
theorem get_video_details_partition (api : List String → Option (List VideoPayload))
    (ids : List String)
    (H : ∀ b ps, api b = some ps → ∀ p ∈ ps, ∃ r, _process_video_data p = Except.ok r) :
    (get_video_details api ids).2 = chunksOf50 ids ∧
    (chunksOf50 ids).length = (ids.length + 49) / 50 ∧
    (∀ c ∈ chunksOf50 ids, c.length ≤ 50) ∧
    (chunksOf50 ids).flatten = ids := by
  obtain ⟨h1, h2, h3⟩ := chunksOf50_spec ids.length ids le_rfl
  exact ⟨get_video_details_trace ids.length api ids le_rfl H, h1, h2, h3⟩

/-- An api on which every details request fails (`HttpError`). -/
def noneApi : List String → Option (List VideoPayload) := fun _ => none

/-- An api returning one well-formed payload for every batch. -/
def fullApi : List String → Option (List VideoPayload) := fun _ => some [fullPayload]

/-- Witness for C4 with a two-id input whose only request fails. -/
theorem get_video_details_partition_witness :
    (get_video_details noneApi ["a", "b"]).2 = chunksOf50 ["a", "b"] ∧
    (chunksOf50 ["a", "b"]).length = ((["a", "b"] : List String).length + 49) / 50 ∧
    (∀ c ∈ chunksOf50 ["a", "b"], c.length ≤ 50) ∧
    (chunksOf50 ["a", "b"]).flatten = ["a", "b"] :=
  get_video_details_partition noneApi ["a", "b"] (fun _ _ h => nomatch h)

/-- C6: with an api whose returned payloads all flatten, the records
returned by `get_video_details` are exactly the per-chunk contributions in
order: a chunk whose request fails contributes nothing, every successful
chunk contributes its records — and the whole call succeeds. -/
theorem get_video_details_error_chunk_omitted :
    ∀ (n : Nat) (api : List String → Option (List VideoPayload)) (ids : List String),
      ids.length ≤ n →
      (∀ b ps, api b = some ps → ∀ p ∈ ps, ∃ r, _process_video_data p = Except.ok r) →
      (get_video_details api ids).1 =
        Except.ok ((chunksOf50 ids).map (chunkRecords api)).flatten := by
  intro n
  induction n with
  | zero =>
      intro api ids h _
      have hids : ids = [] := by
        cases ids with
        | nil => rfl
        | cons a t => simp at h
      subst hids
      rw [get_video_details, chunksOf50]
      simp
  | succ n ih =>
      intro api ids h H
      rw [get_video_details, chunksOf50]
      by_cases hids : ids = []
      · subst hids
        simp
      · rw [dif_neg hids, dif_neg hids]
        have hlen : 1 ≤ ids.length := List.length_pos.mpr hids
        have hdl : (ids.drop 50).length = ids.length - 50 := by simp
        have hrec := ih api (ids.drop 50) (by omega) H
        cases hapi : api (ids.take 50) with
        | none =>
            simp only [List.map_cons, List.flatten_cons, chunkRecords, hapi]
            simp [hapi, hrec]
        | some ps =>
            simp only [hapi]
            rw [processItems_ok ps (H _ ps hapi)]
            simp only [List.map_cons, List.flatten_cons, chunkRecords, hapi]
            simp [hrec, Except.map]

/-- Witness for C6 with a one-id input whose single request succeeds. -/
theorem get_video_details_error_chunk_omitted_witness :
    (get_video_details fullApi ["a"]).1 =
      Except.ok ((chunksOf50 ["a"]).map (chunkRecords fullApi)).flatten :=
  get_video_details_error_chunk_omitted 1 fullApi ["a"] (by decide)
    (fun b ps h => by
      cases h
      intro p hp
      rcases List.mem_singleton.mp hp with rfl
      exact ⟨fullRecord, rfl⟩)

/-- Reader step: an ordinary character extends the current field. -/
theorem csvAux_step_plain (c : Char) (h1 : c ≠ ',') (h2 : c ≠ '\r') (h3 : c ≠ '"')
    (field : List Char) (row : List (List Char)) (rows : List (List (List Char)))
    (input : List Char) :
    csvAux false field row rows (c :: input) = csvAux false (c :: field) row rows input := by
  rw [csvAux.eq_def]
  simp [h1, h2, h3]

/-- Reader step: a comma ends the current field. -/
theorem csvAux_step_comma (field : List Char) (row : List (List Char))
    (rows : List (List (List Char))) (input : List Char) :
    csvAux false field row rows (',' :: input) =
      csvAux false [] (field.reverse :: row) rows input := by
  rw [csvAux.eq_def]
  simp

/-- Reader step: CRLF ends the current record. -/
theorem csvAux_step_crlf (field : List Char) (row : List (List Char))
    (rows : List (List (List Char))) (input : List Char) :
    csvAux false field row rows ('\r' :: '\n' :: input) =
      csvAux false [] [] ((field.reverse :: row).reverse :: rows) input := by
  rw [csvAux.eq_def]
  simp

/-- Reader step: a quote at field start enters quoted mode. -/
theorem csvAux_step_openquote (row : List (List Char)) (rows : List (List (List Char)))
    (input : List Char) :
    csvAux false [] row rows ('"' :: input) = csvAux true [] row rows input := by
  rw [csvAux.eq_def]
  simp

/-- Reader step (quoted): an ordinary character extends the field. -/
theorem csvAux_step_inq_plain (c : Char) (h : c ≠ '"') (field : List Char)
    (row : List (List Char)) (rows : List (List (List Char))) (input : List Char) :
    csvAux true field row rows (c :: input) = csvAux true (c :: field) row rows input := by
  rw [csvAux.eq_def]
  simp [h]

/-- Reader step (quoted): a doubled quote is an escaped quote character. -/
theorem csvAux_step_inq_double (field : List Char) (row : List (List Char))
    (rows : List (List (List Char))) (input : List Char) :
    csvAux true field row rows ('"' :: '"' :: input) =
      csvAux true ('"' :: field) row rows input := by
  rw [csvAux.eq_def]
  simp

/-- Reader step (quoted): a lone quote closes the quoted field. -/
theorem csvAux_step_inq_close_cons (c2 : Char) (h : c2 ≠ '"') (field : List Char)
    (row : List (List Char)) (rows : List (List (List Char))) (input2 : List Char) :
    csvAux true field row rows ('"' :: c2 :: input2) =
      csvAux false field row rows (c2 :: input2) := by
  rw [csvAux.eq_def]
  simp [h]

/-- Reader step (quoted): a closing quote at end of input. -/
theorem csvAux_step_inq_close_nil (field : List Char) (row : List (List Char))
    (rows : List (List (List Char))) :
    csvAux true field row rows ['"'] = csvAux false field row rows [] := by
  rw [csvAux.eq_def]
  simp

/-- The reader consumes an unquoted rendered field verbatim. -/
theorem csvAux_consume_plain (f : List Char) (hf : ∀ c ∈ f, isSpecial c = false) :
    ∀ (field : List Char) (row : List (List Char)) (rows : List (List (List Char)))
      (rest : List Char),
      csvAux false field row rows (f ++ rest) =
        csvAux false (f.reverse ++ field) row rows rest := by
  induction f with
  | nil => intro field row rows rest; simp
  | cons c f ih =>
      intro field row rows rest
      have hc := hf c (by simp)
      simp only [isSpecial, Bool.or_eq_false_iff, decide_eq_false_iff_not] at hc
      obtain ⟨⟨⟨h1, h3⟩, h2⟩, h4⟩ := hc
      rw [List.cons_append, csvAux_step_plain c h1 h2 h3,
        ih (fun x hx => hf x (by simp [hx]))]
      simp

/-- The reader consumes a quote-escaped field body up to its closing quote,
recovering the original characters. -/
theorem csvAux_consume_quoted (f : List Char) :
    ∀ (field : List Char) (row : List (List Char)) (rows : List (List (List Char)))
      (rest : List Char),
      (rest = [] ∨ ∃ c2 t, rest = c2 :: t ∧ c2 ≠ '"') →
      csvAux true field row rows (escapeQuotes f ++ '"' :: rest) =
        csvAux false (f.reverse ++ field) row rows rest := by
  induction f with
  | nil =>
      intro field row rows rest hrest
      rcases hrest with rfl | ⟨c2, t, rfl, hc2⟩
      · exact csvAux_step_inq_close_nil field row rows
      · exact csvAux_step_inq_close_cons c2 hc2 field row rows t
  | cons c f ih =>
      intro field row rows rest hrest
      by_cases hc : c = '"'
      · subst hc
        have he : escapeQuotes ('"' :: f) = '"' :: '"' :: escapeQuotes f := by
          simp [escapeQuotes]
        rw [he, List.cons_append, List.cons_append, csvAux_step_inq_double,
          ih ('"' :: field) row rows rest hrest]
        simp
      · have he : escapeQuotes (c :: f) = c :: escapeQuotes f := by
          simp [escapeQuotes, hc]
        rw [he, List.cons_append, csvAux_step_inq_plain c hc,
          ih (c :: field) row rows rest hrest]
        simp

/-- The reader consumes one rendered field (quoted or not), recovering it. -/
theorem csvAux_consume_field (f : List Char) (row : List (List Char))
    (rows : List (List (List Char))) (rest : List Char)
    (hrest : rest = [] ∨ ∃ c2 t, rest = c2 :: t ∧ c2 ≠ '"') :
    csvAux false [] row rows (renderField f ++ rest) =
      csvAux false f.reverse row rows rest := by
  by_cases hq : f.any isSpecial
  · rw [renderField, if_pos hq]
    have hsh : ('"' :: (escapeQuotes f ++ ['"'])) ++ rest =
        '"' :: (escapeQuotes f ++ '"' :: rest) := by simp
    rw [hsh, csvAux_step_openquote, csvAux_consume_quoted f [] row rows rest hrest]
    simp
  · rw [renderField, if_neg hq]
    have hf : ∀ c ∈ f, isSpecial c = false := by
      intro c hc
      rcases hb : isSpecial c with _ | _
      · rfl
      · exact absurd (List.any_eq_true.mpr ⟨c, hc, hb⟩) hq
    have := csvAux_consume_plain f hf [] row rows rest
    simpa using this

/-- The reader consumes one rendered row, pushing its fields as a record. -/
theorem csvAux_consume_row (fs : List (List Char)) :
    fs ≠ [] →
    ∀ (row : List (List Char)) (rows : List (List (List Char))) (rest : List Char),
      csvAux false [] row rows (joinFields fs ++ '\r' :: '\n' :: rest) =
        csvAux false [] [] ((row.reverse ++ fs) :: rows) rest := by
  induction fs with
  | nil => intro h; exact absurd rfl h
  | cons f fs ih =>
      intro _ row rows rest
      cases fs with
      | nil =>
          have hj : joinFields [f] = renderField f := rfl
          rw [hj, csvAux_consume_field f row rows ('\r' :: '\n' :: rest)
            (Or.inr ⟨'\r', '\n' :: rest, rfl, by decide⟩), csvAux_step_crlf]
          have harg : (f.reverse.reverse :: row).reverse = row.reverse ++ [f] := by simp
          rw [harg]
      | cons g fs2 =>
          have hj : joinFields (f :: g :: fs2) = renderField f ++ ',' :: joinFields (g :: fs2) := rfl
          have hsh : (renderField f ++ ',' :: joinFields (g :: fs2)) ++ '\r' :: '\n' :: rest =
              renderField f ++ ',' :: (joinFields (g :: fs2) ++ '\r' :: '\n' :: rest) := by
            simp
          rw [hj, hsh, csvAux_consume_field f row rows
            (',' :: (joinFields (g :: fs2) ++ '\r' :: '\n' :: rest))
            (Or.inr ⟨',', _, rfl, by decide⟩), csvAux_step_comma,
            ih (by simp) (f.reverse.reverse :: row) rows rest]
          have harg : (f.reverse.reverse :: row).reverse ++ g :: fs2 =
              row.reverse ++ f :: g :: fs2 := by simp
          rw [harg]

/-- The reader recovers all rendered rows. -/
theorem csvAux_consume_file (rws : List (List (List Char))) :
    (∀ r ∈ rws, r ≠ []) →
    ∀ (rowsAcc : List (List (List Char))),
      csvAux false [] [] rowsAcc (renderFile rws) = rowsAcc.reverse ++ rws := by
  induction rws with
  | nil =>
      intro _ rowsAcc
      rw [renderFile, csvAux.eq_def]
      simp
  | cons r rws ih =>
      intro h rowsAcc
      have hrf : renderFile (r :: rws) = joinFields r ++ '\r' :: '\n' :: renderFile rws := by
        simp [renderFile, renderRow]
      rw [hrf, csvAux_consume_row r (h r (by simp)) [] rowsAcc (renderFile rws),
        ih (fun q hq => h q (by simp [hq])) (([].reverse ++ r) :: rowsAcc)]
      simp

/-- Rebuilding a string from its characters is the identity. -/
theorem string_mk_data (s : String) : String.mk s.data = s := rfl

/-- C8: writing any list of records with `export_to_csv` produces a file
that a CSV reader parses back as the 12-name header row followed by one row
per record, each matching its source record field for field; in particular
the file holds exactly `records.length` data rows. -/
theorem export_to_csv_roundtrip (records : List VideoRecord) :
    parseCSV (export_to_csv records) = fieldnames :: records.map recordRow ∧
    (records.map recordRow).length = records.length := by
  constructor
  · have hne : ∀ r ∈ (fieldnames :: records.map recordRow).map
        (fun row => row.map String.data), r ≠ [] := by
      intro r hr
      simp only [List.mem_map, List.mem_cons] at hr
      obtain ⟨row, hrow, rfl⟩ := hr
      rcases hrow with rfl | hrow
      · simp [fieldnames]
      · obtain ⟨v, _, rfl⟩ := hrow
        simp [recordRow]
    show (csvAux false [] [] []
        (String.mk (renderFile ((fieldnames :: records.map recordRow).map
          (fun row => row.map String.data)))).data).map
        (fun row => row.map (fun f => String.mk f)) = _
    rw [show (String.mk (renderFile ((fieldnames :: records.map recordRow).map
        (fun row => row.map String.data)))).data
        = renderFile ((fieldnames :: records.map recordRow).map
          (fun row => row.map String.data)) from rfl]
    rw [csvAux_consume_file _ hne []]
    have hid : ((fun f => (String.mk f : String)) ∘ String.data) = id :=
      funext fun s => string_mk_data s
    simp [List.map_map, hid]
  · simp
